import Mathlib

/-!
Shallow embedding of the caption-derivation core of the Discogs editor bot
(source file: bot.py).  Python strings are modelled as Lean `String`s / lists
of `Char`; JSON-optional fields are `Option`s; Python falsy coalescing
(`x or y`) is modelled explicitly.  Case folding for `str.lower()` and the
`re.I` flag is modelled on the ASCII range (the only range the source's
literals exercise).
-/

/-- ASCII model of Python case folding: maps A..Z to a..z, else identity. -/
def lowerChar (c : Char) : Char :=
  if 'A' ≤ c ∧ c ≤ 'Z' then Char.ofNat (c.toNat + 32) else c

/-- ASCII decimal digit, the `\d` class and `str.isdigit` on ASCII input. -/
def pyDigit (c : Char) : Bool :=
  decide ('0' ≤ c ∧ c ≤ '9')

/-- The whitespace class of Python `str.strip()` and the regex class `\s`. -/
def isPySpace (c : Char) : Bool :=
  c = ' ' || c = '\t' || c = '\n' || c = '\r' || c = '\x0b' || c = '\x0c'

/-- The character class `[A-Za-z0-9]` used by `hashtags`. -/
def isAsciiAlnum (c : Char) : Bool :=
  decide (('A' ≤ c ∧ c ≤ 'Z') ∨ ('a' ≤ c ∧ c ≤ 'z') ∨ ('0' ≤ c ∧ c ≤ '9'))

/-- Python `str.strip()`: drop leading and trailing whitespace. -/
def pyStrip (s : String) : String :=
  String.mk (((s.data.dropWhile isPySpace).reverse.dropWhile isPySpace).reverse)

/-- Everything after the first occurrence of `c`, as in `s.split(c, 1)[1]`
(meaningful only when `c` occurs in `s`). -/
def afterFirst (c : Char) : List Char → List Char
  | [] => []
  | x :: xs => if x = c then xs else afterFirst c xs

/-- Plain (case-sensitive) list-prefix test, for Python's `in` on strings. -/
def startsWithP : List Char → List Char → Bool
  | [], _ => true
  | _ :: _, [] => false
  | p :: ps, c :: cs => p == c && startsWithP ps cs

/-- Python substring containment `pat in s` (contiguous substring). -/
def isSubstr (pat : List Char) : List Char → Bool
  | [] => startsWithP pat []
  | c :: cs => startsWithP pat (c :: cs) || isSubstr pat cs

/-- Match the literal `pat` (given lowercase) case-insensitively at the head
of `s`; on success return the remainder of `s`.  Models a literal run in a
regex compiled with `re.I`. -/
def stripCI : List Char → List Char → Option (List Char)
  | [], s => some s
  | _ :: _, [] => none
  | p :: ps, c :: cs => if lowerChar c = p then stripCI ps cs else none

/-- Case-insensitive prefix test (Boolean form of `stripCI`). -/
def startsWithCI : List Char → List Char → Bool
  | [], _ => true
  | _ :: _, [] => false
  | p :: ps, c :: cs => lowerChar c == p && startsWithCI ps cs

/-- Case-insensitive substring containment. -/
def containsCI (pat : List Char) : List Char → Bool
  | [] => startsWithCI pat []
  | c :: cs => startsWithCI pat (c :: cs) || containsCI pat cs

/-- Greedy maximal run of digits at the head of the list (`\d*`), returning
the run and the remainder. -/
def takeDigits : List Char → List Char × List Char
  | [] => ([], [])
  | c :: cs =>
      if pyDigit c then
        let p := takeDigits cs
        (c :: p.1, p.2)
      else ([], c :: cs)

/-- Value of a decimal digit string, as Python `int`. -/
def digitsToNat (l : List Char) : Nat :=
  l.foldl (fun a c => 10 * a + (c.toNat - 48)) 0

/-- The literal `discogs\.com/` of `RE_RELEASE` / `RE_MASTER`. -/
def domPat : List Char := ['d', 'i', 's', 'c', 'o', 'g', 's', '.', 'c', 'o', 'm', '/']

/-- The literal `release/` of `RE_RELEASE`. -/
def relPat : List Char := ['r', 'e', 'l', 'e', 'a', 's', 'e', '/']

/-- The word `release` (used to state absence of accidental matches). -/
def relWord : List Char := ['r', 'e', 'l', 'e', 'a', 's', 'e']

/-- The literal `master/` of `RE_MASTER`. -/
def masPat : List Char := ['m', 'a', 's', 't', 'e', 'r', '/']

/-- Match `release/(\d+)` at the head of `s` (case-insensitive literal, then
at least one digit); returns the digit group. -/
def relTail (s : List Char) : Option (List Char) :=
  match stripCI relPat s with
  | none => none
  | some r =>
      match takeDigits r with
      | ([], _) => none
      | (d :: ds, _) => some (d :: ds)

/-- Match `master/(\d+)` at the head of `s`; returns the digit group. -/
def masTail (s : List Char) : Option (List Char) :=
  match stripCI masPat s with
  | none => none
  | some r =>
      match takeDigits r with
      | ([], _) => none
      | (d :: ds, _) => some (d :: ds)

/-- The group-present alternative of `(?:.*?/)?` followed by `tail`: try, for
increasing k, to let `.*?` consume the first k characters (none of which may
be a newline), require a `/`, then match `tail` on the rest.  Lazy `.*?`
means the smallest successful k wins. -/
def scanGroup (tail : List Char → Option (List Char)) : List Char → Option (List Char)
  | [] => none
  | c :: cs =>
      if c = '\n' then none
      else
        match (if c = '/' then tail cs else none) with
        | some r => some r
        | none => scanGroup tail cs

/-- Semantics of `(?:.*?/)?` followed by `tail` at a fixed position: the
greedy optional group tries the group-present alternative (all k) first,
then falls back to matching `tail` directly. -/
def afterDomain (tail : List Char → Option (List Char)) (s : List Char) : Option (List Char) :=
  match scanGroup tail s with
  | some r => some r
  | none => tail s

/-- `re.search` for `discogs\.com/(?:.*?/)?<tail>`: try each start position
left to right; at each position require the domain literal then the rest. -/
def searchFrom (tail : List Char → Option (List Char)) : List Char → Option (List Char)
  | [] => none
  | c :: cs =>
      match stripCI domPat (c :: cs) with
      | some r =>
          match afterDomain tail r with
          | some ds => some ds
          | none => searchFrom tail cs
      | none => searchFrom tail cs

/-- `RE_RELEASE.search(text)`, returning `m.group(1)` (the id digits). -/
def searchRelease (s : String) : Option String :=
  (searchFrom relTail s.data).map String.mk

/-- `RE_MASTER.search(text)`, returning `m.group(1)`. -/
def searchMaster (s : String) : Option String :=
  (searchFrom masTail s.data).map String.mk

/-- `extract_id`: release pattern first, then master, else `(None, None)`. -/
def extract_id (text : String) : Option String × Option String :=
  match searchRelease text with
  | some i => (some "release", some i)
  | none =>
      match searchMaster text with
      | some i => (some "master", some i)
      | none => (none, none)

/-- An entry of a release's `artists` array (only `name` is read). -/
structure ArtistRef where
  name : Option String
  deriving DecidableEq

/-- A tracklist entry: `type_` defaults to `"track"` when absent. -/
structure Track where
  type_ : Option String
  title : Option String
  deriving DecidableEq

/-- An `extraartists` entry. -/
structure CreditEntry where
  role : Option String
  name : Option String
  deriving DecidableEq

/-- The fields of a Discogs release record read by the caption engine.
`Option` models an absent (or JSON-null) key. -/
structure ReleaseData where
  artists_sort : Option String
  artists : List ArtistRef
  title : Option String
  year : Option Int
  tracklist : Option (List Track)
  extraartists : Option (List CreditEntry)
  genres : Option (List String)
  styles : Option (List String)
  deriving DecidableEq

/-- A release record with every field absent/empty. -/
def emptyRelease : ReleaseData :=
  { artists_sort := none, artists := [], title := none, year := none,
    tracklist := none, extraartists := none, genres := none, styles := none }

/-- ASCII model of `str.lower()`. -/
def lowerString (s : String) : String :=
  String.mk (s.data.map lowerChar)

/-- Does the (already lowercased) role of `p` contain some keyword?
Models `any(k in role for k in keywords)` with `role = (p.get("role") or "").lower()`. -/
def roleMatches (keywords : List String) (p : CreditEntry) : Bool :=
  keywords.any (fun k => isSubstr k.data (lowerString (p.role.getD "")).data)

/-- `dict.fromkeys` order-preserving de-duplication: walk the list keeping a
set of seen keys, keep an element only on its first occurrence. -/
def fromKeysAcc : List String → List String → List String
  | _, [] => []
  | seen, x :: xs =>
      if x ∈ seen then fromKeysAcc seen xs else x :: fromKeysAcc (x :: seen) xs

/-- `list(dict.fromkeys(out))`. -/
def pyFromKeys (l : List String) : List String :=
  fromKeysAcc [] l

/-- `extract_roles`: names of entries whose lowercased role contains a
keyword, in order, de-duplicated keeping first occurrences.  `if not extra`
returns `[]` for an absent or empty list. -/
def extract_roles (extra : Option (List CreditEntry)) (keywords : List String) : List String :=
  match extra with
  | none => []
  | some l =>
      pyFromKeys ((l.filter (roleMatches keywords)).map (fun p => p.name.getD ""))

/-- `hashtags`: genres then styles, entries blank after stripping skipped,
non-alphanumerics removed, each token prefixed with `#`, joined by spaces. -/
def hashtags (data : ReleaseData) : String :=
  " ".intercalate
    (((data.genres.getD [] ++ data.styles.getD []).filter
        (fun x => !(pyStrip x).isEmpty)).map
      (fun x => "#" ++ String.mk (x.data.filter isAsciiAlnum)))

/-- The tracklist filtered to entries whose `type_` (default `"track"`)
equals `"track"`: the addressing space of `choose_track`. -/
def filteredTracks (data : ReleaseData) : List Track :=
  (data.tracklist.getD []).filter (fun t => t.type_.getD "track" == "track")

/-- The word `track` of the index-hint pattern. -/
def trackWord : List Char := ['t', 'r', 'a', 'c', 'k']

/-- `re.match(r"track\s*:\s*(\d+)", hint, re.I)`: anchored at the start
(trailing text is allowed), returns `int(group(1))`. -/
def parseIndexHint (s : List Char) : Option Nat :=
  match stripCI trackWord s with
  | none => none
  | some r =>
      match r.dropWhile isPySpace with
      | ':' :: r2 =>
          match takeDigits (r2.dropWhile isPySpace) with
          | ([], _) => none
          | (d :: ds, _) => some (digitsToNat (d :: ds))
      | _ => none

/-- The name-hint condition: the lowercased hint `h` occurs in the
lowercased title (`""` when the title is absent). -/
def nameCond (h : List Char) (t : Track) : Bool :=
  isSubstr h ((t.title.getD "").data.map lowerChar)

/-- The name-hint loop: return `t.get("title")` of the first entry whose
lowercased title contains `h` (this is the raw optional title: an entry
matched through a missing title yields `none`). -/
def trackNameSearch (h : List Char) : List Track → Option String
  | [] => none
  | t :: ts => if nameCond h t then t.title else trackNameSearch h ts

/-- The trimmed hint segment after the first `|` of the user text. -/
def hintOf (user_text : String) : String :=
  pyStrip (String.mk (afterFirst '|' user_text.data))

/-- `choose_track`: absent without `|`; an in-range index hint returns that
track's raw optional title; a failed or out-of-range index hint falls
through to the name-hint loop. -/
def choose_track (data : ReleaseData) (user_text : String) : Option String :=
  if user_text.data.contains '|' = false then none
  else
    match parseIndexHint (hintOf user_text).data with
    | some n =>
        if 0 ≤ (n : Int) - 1 ∧ (n : Int) - 1 < ((filteredTracks data).length : Int) then
          match (filteredTracks data)[(((n : Int) - 1).toNat)]? with
          | some t => t.title
          | none => none
        else trackNameSearch ((hintOf user_text).data.map lowerChar) (filteredTracks data)
    | none => trackNameSearch ((hintOf user_text).data.map lowerChar) (filteredTracks data)

/-- The artist field: `artists_sort` if truthy, else the joined names. -/
def artistField (data : ReleaseData) : String :=
  match data.artists_sort with
  | some s => if s = "" then ", ".intercalate (data.artists.map (fun a => a.name.getD "")) else s
  | none => ", ".intercalate (data.artists.map (fun a => a.name.getD ""))

/-- `str(data.get("year") or "").strip()` (year `0` and absent both give an
empty string, as `0` is falsy in Python). -/
def yearString (data : ReleaseData) : String :=
  pyStrip (match data.year with
    | none => ""
    | some y => if y = 0 then "" else toString y)

/-- Python `str.isdigit` (ASCII model): non-empty and all digits. -/
def pyIsdigit (s : String) : Bool :=
  !s.isEmpty && s.data.all pyDigit

/-- The decade suffix: for an exactly-4-digit year string, a space and a
hashtag built from the third digit, else empty. -/
def decadeOf (y : String) : String :=
  if pyIsdigit y && (y.length == 4) then " #" ++ String.mk [y.data.getD 2 ' '] ++ "0s" else ""

/-- The track line (emitted only for a truthy selected title). -/
def trackLines (data : ReleaseData) (user_text : String) : List String :=
  match choose_track data user_text with
  | some t => if t = "" then [] else ["🎵 Track Title : " ++ t]
  | none => []

/-- The producer line. -/
def producerLines (data : ReleaseData) : List String :=
  match extract_roles data.extraartists ["producer"] with
  | [] => []
  | p :: ps => ["🎚 Producer : " ++ ", ".intercalate (p :: ps)]

/-- The engineer line. -/
def engineerLines (data : ReleaseData) : List String :=
  match extract_roles data.extraartists ["engineer", "mix", "record", "master", "sound"] with
  | [] => []
  | p :: ps => ["🎛 Sound Engineer : " ++ ", ".intercalate (p :: ps)]

/-- The date line (emitted only for a truthy year string). -/
def dateLines (data : ReleaseData) : List String :=
  if yearString data = "" then []
  else ["📅 Date : " ++ yearString data ++ decadeOf (yearString data)]

/-- The tags line (emitted only for a non-empty hashtag string). -/
def tagLines (data : ReleaseData) : List String :=
  if hashtags data = "" then [] else [hashtags data]

/-- The caption's line list, in source order. -/
def caption_lines (data : ReleaseData) (user_text : String) : List String :=
  ["🎧 Artist : " ++ artistField data]
    ++ trackLines data user_text
    ++ ["💿 Album : " ++ data.title.getD ""]
    ++ producerLines data
    ++ engineerLines data
    ++ dateLines data
    ++ tagLines data

/-- `build_caption`: the lines joined by single newlines. -/
def build_caption (data : ReleaseData) (user_text : String) : String :=
  "\n".intercalate (caption_lines data user_text)

/-! ### Spec-side definitions (written from the specification's wording) -/

/-- Spec wording of first-occurrence de-duplication: walk the list and
append each element not seen so far. -/
def specFirstDedup (l : List String) : List String :=
  l.foldl (fun acc x => if x ∈ acc then acc else acc ++ [x]) []

/-- Spec wording of the credit filter: the names of the entries whose
lowercased role contains at least one keyword as a substring, in encounter
order (before de-duplication). -/
def matchedNames (extra : Option (List CreditEntry)) (keywords : List String) : List String :=
  ((extra.getD []).filter (roleMatches keywords)).map (fun p => p.name.getD "")

/-- The hashtag tokens, before joining with spaces. -/
def tagTokens (data : ReleaseData) : List String :=
  ((data.genres.getD [] ++ data.styles.getD []).filter
      (fun x => !(pyStrip x).isEmpty)).map
    (fun x => "#" ++ String.mk (x.data.filter isAsciiAlnum))

/-! ### Lemmas about first-occurrence de-duplication -/

theorem fromKeysAcc_sublist (l : List String) : ∀ seen, List.Sublist (fromKeysAcc seen l) l := by
  induction l with
  | nil => intro seen; simp [fromKeysAcc]
  | cons x xs ih =>
      intro seen
      by_cases hx : x ∈ seen
      · simp only [fromKeysAcc, if_pos hx]
        exact (ih seen).trans (List.sublist_cons_self x xs)
      · simpa only [fromKeysAcc, if_neg hx] using (ih (x :: seen)).cons₂ x

theorem mem_fromKeysAcc (x : String) (l : List String) :
    ∀ seen, x ∈ fromKeysAcc seen l → x ∈ l ∧ x ∉ seen := by
  induction l with
  | nil => intro seen h; simp [fromKeysAcc] at h
  | cons y ys ih =>
      intro seen h
      by_cases hy : y ∈ seen
      · rw [fromKeysAcc, if_pos hy] at h
        have := ih seen h
        exact ⟨List.mem_cons_of_mem y this.1, this.2⟩
      · rw [fromKeysAcc, if_neg hy] at h
        rcases List.mem_cons.mp h with h1 | h2
        · exact ⟨by simp [h1], h1 ▸ hy⟩
        · have := ih (y :: seen) h2
          refine ⟨List.mem_cons_of_mem y this.1, fun hs => this.2 ?_⟩
          exact List.mem_cons_of_mem y hs

theorem mem_fromKeysAcc_of (x : String) (l : List String) :
    ∀ seen, x ∈ l → x ∉ seen → x ∈ fromKeysAcc seen l := by
  induction l with
  | nil => intro seen h; simp at h
  | cons y ys ih =>
      intro seen h hs
      by_cases hy : y ∈ seen
      · rw [fromKeysAcc, if_pos hy]
        rcases List.mem_cons.mp h with h1 | h2
        · exact absurd (h1 ▸ hy) hs
        · exact ih seen h2 hs
      · rw [fromKeysAcc, if_neg hy]
        rcases List.mem_cons.mp h with h1 | h2
        · simp [h1]
        · by_cases hxy : x = y
          · simp [hxy]
          · exact List.mem_cons_of_mem y (ih (y :: seen) h2 (by simp [hs, hxy]))

theorem fromKeysAcc_nodup (l : List String) : ∀ seen, (fromKeysAcc seen l).Nodup := by
  induction l with
  | nil => intro seen; simp [fromKeysAcc]
  | cons x xs ih =>
      intro seen
      by_cases hx : x ∈ seen
      · rw [fromKeysAcc, if_pos hx]; exact ih seen
      · rw [fromKeysAcc, if_neg hx]
        refine List.nodup_cons.mpr ⟨fun hmem => ?_, ih (x :: seen)⟩
        exact (mem_fromKeysAcc x xs (x :: seen) hmem).2 (by simp)

theorem foldl_eq_fromKeysAcc (l : List String) :
    ∀ (A S : List String), (∀ x : String, x ∈ A ↔ x ∈ S) →
      l.foldl (fun acc x => if x ∈ acc then acc else acc ++ [x]) A = A ++ fromKeysAcc S l := by
  induction l with
  | nil => intro A S _; simp [fromKeysAcc]
  | cons x xs ih =>
      intro A S h
      by_cases hx : x ∈ S
      · rw [List.foldl_cons, if_pos ((h x).mpr hx), fromKeysAcc, if_pos hx]
        exact ih A S h
      · rw [List.foldl_cons, if_neg (fun hA => hx ((h x).mp hA)), fromKeysAcc, if_neg hx]
        rw [ih (A ++ [x]) (x :: S) (by intro y; simp [h y]; tauto)]
        simp

theorem pyFromKeys_eq_spec (l : List String) : pyFromKeys l = specFirstDedup l := by
  rw [pyFromKeys, specFirstDedup, foldl_eq_fromKeysAcc l [] [] (by simp)]
  simp

/-- C3: the Credit Extractor returns exactly the matching names in encounter
order, de-duplicated keeping first occurrences; its output never contains two
equal names and is always a (order-preserving) sublist of the matching-name
sequence, containing exactly its elements. -/
theorem c3_extract_roles_dedup (extra : Option (List CreditEntry)) (keywords : List String) :
    extract_roles extra keywords = specFirstDedup (matchedNames extra keywords)
      ∧ (extract_roles extra keywords).Nodup
      ∧ List.Sublist (extract_roles extra keywords) (matchedNames extra keywords)
      ∧ ∀ x : String, x ∈ extract_roles extra keywords ↔ x ∈ matchedNames extra keywords := by
  have hform : extract_roles extra keywords = pyFromKeys (matchedNames extra keywords) := by
    cases extra with
    | none => simp [extract_roles, matchedNames, pyFromKeys, fromKeysAcc]
    | some l => simp [extract_roles, matchedNames]
  refine ⟨hform.trans (pyFromKeys_eq_spec _), ?_, ?_, ?_⟩
  · rw [hform]; exact fromKeysAcc_nodup _ []
  · rw [hform]; exact fromKeysAcc_sublist _ []
  · intro x
    rw [hform]
    constructor
    · intro h; exact (mem_fromKeysAcc x _ [] h).1
    · intro h; exact mem_fromKeysAcc_of x _ [] h (by simp)

/-- The release record of the end-to-end example. -/
def c2rec : ReleaseData :=
  { emptyRelease with
      artists_sort := some "A"
      title := some "B"
      year := some 2001
      genres := some ["Soul"] }

/-- C2: a record with artist "A", title "B", year 2001, genres ["Soul"], no
extra-artists, and user text without a bar produces exactly the four-line
caption with the literal label prefixes, newline-joined, no trailing
newline. -/
theorem c2_caption_exact :
    build_caption c2rec "hello" = "🎧 Artist : A\n💿 Album : B\n📅 Date : 2001 #00s\n#Soul" := by
  decide

/-- C5: Tag Builder concatenates genres then styles, skips entries blank
after trimming, strips non-alphanumerics, prefixes `#`, joins with single
spaces; the worked example holds; with only blank entries the result is
empty; and an empty result makes the composer behave exactly as if the
record had no genres/styles at all (no tags line). -/
theorem c5_hashtags_spec :
    (∀ d : ReleaseData,
        hashtags d = " ".intercalate
          (((d.genres.getD [] ++ d.styles.getD []).filter
              (fun x => !(pyStrip x).isEmpty)).map
            (fun x => "#" ++ String.mk (x.data.filter isAsciiAlnum))))
    ∧ hashtags { emptyRelease with genres := some ["Hip Hop", "Jazz-Funk"], styles := some [""] }
        = "#HipHop #JazzFunk"
    ∧ (∀ g s : List String, (∀ x, x ∈ g ++ s → pyStrip x = "") →
        hashtags { emptyRelease with genres := some g, styles := some s } = "")
    ∧ (∀ (d : ReleaseData) (u : String), hashtags d = "" →
        caption_lines d u = caption_lines { d with genres := none, styles := none } u) := by
  refine ⟨fun d => rfl, by decide, ?_, ?_⟩
  · intro g s h
    have hf : (g ++ s).filter (fun x => !(pyStrip x).isEmpty) = [] := by
      rw [List.filter_eq_nil_iff]
      intro a ha
      rw [h a ha]
      decide
    simp only [hashtags, emptyRelease, Option.getD_some, hf]
    rfl
  · intro d u h
    cases d with
    | mk a1 a2 a3 a4 a5 a6 a7 a8 =>
        have h3 : tagLines (ReleaseData.mk a1 a2 a3 a4 a5 a6 a7 a8) = [] := by
          rw [tagLines, if_pos h]
        have hz : hashtags (ReleaseData.mk a1 a2 a3 a4 a5 a6 none none) = "" := rfl
        have h4 : tagLines (ReleaseData.mk a1 a2 a3 a4 a5 a6 none none) = [] := by
          rw [tagLines, if_pos hz]
        simp only [caption_lines, h3, h4]
        rfl

/-- Witness for C5: the blank-entries and no-tags-line parts at concrete
inputs. -/
theorem c5_hashtags_spec_witness :
    hashtags { emptyRelease with genres := some ["  "], styles := some [""] } = ""
      ∧ caption_lines { emptyRelease with title := some "T", genres := some ["  "] } "u"
          = caption_lines { emptyRelease with title := some "T" } "u" := by
  constructor
  · exact c5_hashtags_spec.2.2.1 ["  "] [""] (by decide)
  · exact c5_hashtags_spec.2.2.2 { emptyRelease with title := some "T", genres := some ["  "] }
      "u" (by decide)

/-- C6 counterexample: a non-blank genre with no alphanumeric characters
produces the hashtag string "#", whose only token is a bare "#" — contrary
to the claim that no token is a bare "#". -/
theorem c6_counterexample :
    hashtags { emptyRelease with genres := some ["?"] } = "#" := by
  decide

/-- C6 (amended): the hashtag string is the space-join of tokens, each of
which is `#` followed by a (possibly empty) run of alphanumerics; every
non-alphanumeric character of a genre/style is stripped.  (A non-blank
entry with no alphanumeric characters yields a bare `#` token.) -/
theorem c6_tokens (d : ReleaseData) :
    hashtags d = " ".intercalate (tagTokens d)
      ∧ ∀ tok, tok ∈ tagTokens d →
          ∃ r : List Char, tok = "#" ++ String.mk r ∧ r.all isAsciiAlnum = true := by
  refine ⟨rfl, ?_⟩
  intro tok htok
  rcases List.mem_map.mp htok with ⟨x, _, rfl⟩
  refine ⟨x.data.filter isAsciiAlnum, rfl, ?_⟩
  rw [List.all_eq_true]
  intro c hc
  exact (List.mem_filter.mp hc).2

/-- Witness for C6 at a concrete token. -/
theorem c6_tokens_witness :
    ∃ r : List Char, "#Soul" = "#" ++ String.mk r ∧ r.all isAsciiAlnum = true := by
  exact (c6_tokens { emptyRelease with genres := some ["Soul"] }).2 "#Soul" (by decide)

/-- C7 counterexample: year 0 is present, and its string conversion "0" is
non-blank, yet no date line is emitted (Python's `or` treats 0 as falsy). -/
theorem c7_counterexample :
    build_caption { emptyRelease with artists_sort := some "A", title := some "B", year := some 0 }
        "t" = "🎧 Artist : A\n💿 Album : B" := by
  decide

theorem yearString_none (d : ReleaseData) (h : d.year = none) : yearString d = "" := by
  simp only [yearString, h]
  decide

theorem yearString_zero (d : ReleaseData) (h : d.year = some 0) : yearString d = "" := by
  simp only [yearString, h]
  decide

theorem yearString_some (d : ReleaseData) (y : Int) (h : d.year = some y) (h0 : y ≠ 0) :
    yearString d = pyStrip (toString y) := by
  simp only [yearString, h, if_neg h0]

/-- C7 (amended): the date line is emitted iff the year is present,
non-zero, and non-blank after string conversion; an exactly-4-digit year
string gets a decade hashtag built from its third digit, any other year
string is emitted without a decade tag. -/
theorem c7_date_line :
    (∀ d : ReleaseData,
        dateLines d ≠ [] ↔ ∃ y : Int, d.year = some y ∧ y ≠ 0 ∧ pyStrip (toString y) ≠ "")
    ∧ (∀ d : ReleaseData, (pyIsdigit (yearString d) && (yearString d).length == 4) = true →
        dateLines d
          = ["📅 Date : " ++ yearString d ++ " #" ++ String.mk [(yearString d).data.getD 2 ' ']
              ++ "0s"])
    ∧ (∀ d : ReleaseData, yearString d ≠ "" →
        (pyIsdigit (yearString d) && (yearString d).length == 4) = false →
        dateLines d = ["📅 Date : " ++ yearString d]) := by
  refine ⟨?_, ?_, ?_⟩
  · intro d
    constructor
    · intro hne
      have hy : yearString d ≠ "" := by
        intro h0
        rw [dateLines, if_pos h0] at hne
        exact hne rfl
      cases hyear : d.year with
      | none => exact absurd (yearString_none d hyear) hy
      | some y =>
          by_cases h0 : y = 0
          · subst h0
            exact absurd (yearString_zero d hyear) hy
          · refine ⟨y, rfl, h0, ?_⟩
            rwa [yearString_some d y hyear h0] at hy
    · rintro ⟨y, hyear, h0, hs⟩
      have heq : yearString d = pyStrip (toString y) := yearString_some d y hyear h0
      rw [dateLines, if_neg (heq ▸ hs)]
      simp
  · intro d h
    have hdig : pyIsdigit (yearString d) = true := (Bool.and_eq_true_iff.mp h).1
    have hne : yearString d ≠ "" := by
      intro h0
      rw [h0] at hdig
      exact absurd hdig (by decide)
    rw [dateLines, if_neg hne, decadeOf, if_pos h]
    simp [String.append_assoc]
  · intro d hne h
    rw [dateLines, if_neg hne, decadeOf, h]
    simp

/-- Witness for C7: concrete 4-digit and 2-digit years. -/
theorem c7_date_line_witness :
    dateLines { emptyRelease with year := some 1994 } = ["📅 Date : 1994 #90s"]
      ∧ dateLines { emptyRelease with year := some 94 } = ["📅 Date : 94"] := by
  constructor
  · have := c7_date_line.2.1 { emptyRelease with year := some 1994 } (by decide)
    simpa using this
  · exact c7_date_line.2.2 { emptyRelease with year := some 94 } (by decide) (by decide)

/-! ### Lemmas about the track selector -/

theorem contains_iff_mem (l : List Char) (c : Char) : l.contains c = true ↔ c ∈ l := by
  simp [List.contains]

theorem trackNameSearch_eq_find (h : List Char) (ts : List Track) :
    trackNameSearch h ts = (ts.find? (nameCond h)).bind Track.title := by
  induction ts with
  | nil => rfl
  | cons t ts ih =>
      by_cases hc : nameCond h t
      · rw [trackNameSearch, if_pos hc, List.find?_cons_of_pos _ hc, Option.bind]
      · rw [trackNameSearch, if_neg hc, List.find?_cons_of_neg _ hc, ih]

theorem trackNameSearch_mem (h : List Char) (ts : List Track) (s : String) :
    trackNameSearch h ts = some s → ∃ t, t ∈ ts ∧ t.title = some s := by
  induction ts with
  | nil => intro hx; simp [trackNameSearch] at hx
  | cons t ts ih =>
      intro hx
      by_cases hc : nameCond h t
      · rw [trackNameSearch, if_pos hc] at hx
        exact ⟨t, List.mem_cons_self t ts, hx⟩
      · rw [trackNameSearch, if_neg hc] at hx
        rcases ih hx with ⟨t2, hmem, htitle⟩
        exact ⟨t2, List.mem_cons_of_mem t hmem, htitle⟩

theorem afterFirst_append (w : List Char) :
    ∀ a : List Char, '|' ∉ a → afterFirst '|' (a ++ '|' :: w) = w := by
  intro a
  induction a with
  | nil => intro _; simp [afterFirst]
  | cons c cs ih =>
      intro hna
      have hc : c ≠ '|' := fun hc => hna (hc ▸ List.mem_cons_self c cs)
      rw [List.cons_append, afterFirst, if_neg hc]
      exact ih (fun hm => hna (List.mem_cons_of_mem c hm))

theorem pyStrip_all_space (l : List Char) (h : l.all isPySpace = true) :
    pyStrip (String.mk l) = "" := by
  have hd : l.dropWhile isPySpace = [] := by
    rw [List.dropWhile_eq_nil_iff]
    intro c hc
    exact List.all_eq_true.mp h c hc
  simp [pyStrip, hd]

theorem isSubstr_nil (l : List Char) : isSubstr [] l = true := by
  cases l with
  | nil => rfl
  | cons c cs => rfl

theorem choose_track_no_bar (d : ReleaseData) (u : String)
    (hc : u.data.contains '|' = false) : choose_track d u = none := by
  rw [choose_track, if_pos hc]

theorem choose_track_eq_name (d : ReleaseData) (u : String)
    (hc : ¬ u.data.contains '|' = false)
    (hp : parseIndexHint (hintOf u).data = none) :
    choose_track d u = trackNameSearch ((hintOf u).data.map lowerChar) (filteredTracks d) := by
  rw [choose_track, if_neg hc, hp]

theorem choose_track_eq_idx (d : ReleaseData) (u : String) (n : Nat)
    (hc : ¬ u.data.contains '|' = false)
    (hp : parseIndexHint (hintOf u).data = some n)
    (hr : 0 ≤ (n : Int) - 1 ∧ (n : Int) - 1 < ((filteredTracks d).length : Int)) :
    choose_track d u
      = match (filteredTracks d)[(((n : Int) - 1).toNat)]? with
        | some t => t.title
        | none => none := by
  rw [choose_track, if_neg hc, hp]
  exact if_pos hr

theorem choose_track_eq_fall (d : ReleaseData) (u : String) (n : Nat)
    (hc : ¬ u.data.contains '|' = false)
    (hp : parseIndexHint (hintOf u).data = some n)
    (hr : ¬(0 ≤ (n : Int) - 1 ∧ (n : Int) - 1 < ((filteredTracks d).length : Int))) :
    choose_track d u = trackNameSearch ((hintOf u).data.map lowerChar) (filteredTracks d) := by
  rw [choose_track, if_neg hc, hp]
  exact if_neg hr

/-- C9: any title returned by the Track Selector belongs to a tracklist
entry whose type tag (defaulting to "track") is "track". -/
theorem c9_only_tracks (d : ReleaseData) (u : String) (s : String)
    (h : choose_track d u = some s) :
    ∃ t, t ∈ d.tracklist.getD [] ∧ t.type_.getD "track" = "track" ∧ t.title = some s := by
  have hfil : ∀ t : Track, t ∈ filteredTracks d →
      t ∈ d.tracklist.getD [] ∧ t.type_.getD "track" = "track" := by
    intro t ht
    rcases List.mem_filter.mp ht with ⟨hmem, hbeq⟩
    exact ⟨hmem, by simpa using hbeq⟩
  by_cases hc : u.data.contains '|' = false
  · rw [choose_track_no_bar d u hc] at h
    exact absurd h (by simp)
  · cases hp : parseIndexHint (hintOf u).data with
    | none =>
        rw [choose_track_eq_name d u hc hp] at h
        rcases trackNameSearch_mem _ _ _ h with ⟨t, hmem, htitle⟩
        rcases hfil t hmem with ⟨h1, h2⟩
        exact ⟨t, h1, h2, htitle⟩
    | some n =>
        by_cases hr : 0 ≤ (n : Int) - 1 ∧ (n : Int) - 1 < ((filteredTracks d).length : Int)
        · rw [choose_track_eq_idx d u n hc hp hr] at h
          cases hg : (filteredTracks d)[(((n : Int) - 1).toNat)]? with
          | none => rw [hg] at h; exact absurd h (by simp)
          | some t =>
              rw [hg] at h
              rcases hfil t (List.getElem?_mem hg) with ⟨h1, h2⟩
              exact ⟨t, h1, h2, h⟩
        · rw [choose_track_eq_fall d u n hc hp hr] at h
          rcases trackNameSearch_mem _ _ _ h with ⟨t, hmem, htitle⟩
          rcases hfil t hmem with ⟨h1, h2⟩
          exact ⟨t, h1, h2, htitle⟩

/-- A release with a heading entry followed by one track entry. -/
def c9rec : ReleaseData :=
  { emptyRelease with
      tracklist := some
        [ { type_ := some "heading", title := some "Side A" },
          { type_ := none, title := some "One" } ] }

/-- Witness for C9 at a concrete release and hint. -/
theorem c9_only_tracks_witness :
    ∃ t, t ∈ c9rec.tracklist.getD []
      ∧ t.type_.getD "track" = "track" ∧ t.title = some "One" := by
  exact c9_only_tracks c9rec "x | one" "One" (by decide)

/-- C8: with no bar the Track Selector is absent unconditionally; when a bar
is present and no index hint selects a track, the result is the raw title of
the first filtered track whose lowercased title contains the lowercased hint
(via `find?`), absent when there is none. -/
theorem c8_name_hint (d : ReleaseData) (u : String) :
    (u.data.contains '|' = false → choose_track d u = none)
    ∧ (u.data.contains '|' = true →
        Option.all
            (fun (n : Nat) => !(decide (0 ≤ (n : Int) - 1
              ∧ (n : Int) - 1 < ((filteredTracks d).length : Int))))
            (parseIndexHint (hintOf u).data) = true →
        choose_track d u
          = ((filteredTracks d).find?
              (nameCond ((hintOf u).data.map lowerChar))).bind Track.title) := by
  constructor
  · exact choose_track_no_bar d u
  · intro hc hall
    have hc2 : ¬ u.data.contains '|' = false := by
      intro hf
      rw [hc] at hf
      exact absurd hf (by decide)
    cases hp : parseIndexHint (hintOf u).data with
    | none => rw [choose_track_eq_name d u hc2 hp, trackNameSearch_eq_find]
    | some n =>
        rw [hp] at hall
        have hb : (!(decide (0 ≤ (n : Int) - 1
            ∧ (n : Int) - 1 < ((filteredTracks d).length : Int)))) = true := hall
        have hd : decide (0 ≤ (n : Int) - 1
            ∧ (n : Int) - 1 < ((filteredTracks d).length : Int)) = false := by
          simpa only [Bool.not_eq_true'] using hb
        have hr : ¬(0 ≤ (n : Int) - 1
            ∧ (n : Int) - 1 < ((filteredTracks d).length : Int)) :=
          of_decide_eq_false hd
        rw [choose_track_eq_fall d u n hc2 hp hr, trackNameSearch_eq_find]

/-- A three-track release whose titles do not mention hints. -/
def c8rec : ReleaseData :=
  { emptyRelease with
      tracklist := some
        [ { type_ := none, title := some "One" },
          { type_ := none, title := some "Two" } ] }

/-- Witness for C8: no-bar input and a concrete name hint. -/
theorem c8_name_hint_witness :
    choose_track emptyRelease "no bar here" = none
      ∧ choose_track c8rec "x | two" = some "Two" := by
  constructor
  · exact (c8_name_hint emptyRelease "no bar here").1 (by decide)
  · exact ((c8_name_hint c8rec "x | two").2 (by decide) (by decide)).trans (by decide)

/-- C10: a bar followed only by whitespace gives an empty hint, which is a
substring of every title, so the first filtered track's title is returned. -/
theorem c10_empty_hint (d : ReleaseData) (a w s : String) (t0 : Track) (ts : List Track)
    (hna : '|' ∉ a.data) (hw : w.data.all isPySpace = true)
    (hft : filteredTracks d = t0 :: ts) (ht : t0.title = some s) :
    choose_track d (a ++ "|" ++ w) = some s := by
  have hdata : (a ++ "|" ++ w).data = a.data ++ '|' :: w.data := by
    simp [String.data_append]
  have hc2 : ¬ (a ++ "|" ++ w).data.contains '|' = false := by
    rw [hdata]
    intro hfalse
    rw [Bool.eq_false_iff] at hfalse
    exact hfalse ((contains_iff_mem _ _).mpr (by simp))
  have hhint : hintOf (a ++ "|" ++ w) = "" := by
    rw [hintOf, hdata, afterFirst_append w.data a.data hna]
    exact pyStrip_all_space w.data hw
  have hp : parseIndexHint (hintOf (a ++ "|" ++ w)).data = none := by
    rw [hhint]; rfl
  rw [choose_track_eq_name d _ hc2 hp, hhint, hft]
  show trackNameSearch [] (t0 :: ts) = some s
  have hcond : nameCond [] t0 = true := isSubstr_nil _
  rw [trackNameSearch, if_pos hcond]
  exact ht

/-- A single-track release for the C10 witness. -/
def c10rec : ReleaseData :=
  { emptyRelease with tracklist := some [ { type_ := none, title := some "Alpha" } ] }

/-- Witness for C10 at a concrete record and whitespace-only hint. -/
theorem c10_empty_hint_witness : choose_track c10rec "x |  " = some "Alpha" := by
  exact c10_empty_hint c10rec "x " " " "Alpha" { type_ := none, title := some "Alpha" } []
    (by decide) (by decide) (by decide) rfl

/-- The release of the C1 counterexample: three tracks, the third titled
"Track:9". -/
def c1rec : ReleaseData :=
  { emptyRelease with
      tracklist := some
        [ { type_ := none, title := some "One" },
          { type_ := none, title := some "Two" },
          { type_ := none, title := some "Track:9" } ] }

/-- C1 counterexample: the hint "| track:9" is an index hint whose index 9
is out of range of the 3-track listing, yet the selector does NOT return
absent: it falls back to name matching and returns the track whose title
contains "track:9". -/
theorem c1_counterexample : choose_track c1rec "url | track:9" = some "Track:9" := by
  decide

/-- C1 (amended): an out-of-range index hint falls through to name
matching; the selector returns absent only when additionally no filtered
track's lowercased title contains the lowercased hint segment. -/
theorem c1_out_of_range_falls_through (d : ReleaseData) (u : String) (n : Nat)
    (hc : u.data.contains '|' = true)
    (hp : parseIndexHint (hintOf u).data = some n)
    (hr : ¬(0 ≤ (n : Int) - 1 ∧ (n : Int) - 1 < ((filteredTracks d).length : Int))) :
    choose_track d u = trackNameSearch ((hintOf u).data.map lowerChar) (filteredTracks d)
      ∧ ((filteredTracks d).all
            (fun t => !(nameCond ((hintOf u).data.map lowerChar) t)) = true →
          choose_track d u = none) := by
  have hc2 : ¬ u.data.contains '|' = false := by
    intro hf
    rw [hc] at hf
    exact absurd hf (by decide)
  have heq := choose_track_eq_fall d u n hc2 hp hr
  refine ⟨heq, fun hall => ?_⟩
  rw [heq, trackNameSearch_eq_find]
  have hfind : (filteredTracks d).find? (nameCond ((hintOf u).data.map lowerChar)) = none := by
    rw [List.find?_eq_none]
    intro x hx
    have hb := List.all_eq_true.mp hall x hx
    simp only [Bool.not_eq_true'] at hb
    simp [hb]
  rw [hfind]
  rfl

/-- A three-track release with no title containing "track:9". -/
def c1brec : ReleaseData :=
  { emptyRelease with
      tracklist := some
        [ { type_ := none, title := some "One" },
          { type_ := none, title := some "Two" },
          { type_ := none, title := some "Three" } ] }

/-- Witness for C1 (amended): out-of-range hint over titles not containing
the hint resolves to absent. -/
theorem c1_out_of_range_falls_through_witness :
    choose_track c1brec "x | track:9" = none := by
  exact (c1_out_of_range_falls_through c1brec "x | track:9" 9
    (by decide) (by decide) (by decide)).2 (by decide)

/-! ### Lemmas for the URL identifier -/

theorem ne_of_lower (c x y : Char) (h : lowerChar c = x) (hy : lowerChar y = y)
    (hxy : x ≠ y) : c ≠ y := by
  intro hc
  rw [hc, hy] at h
  exact hxy h.symm

theorem lowerChar_digit (c : Char) (h : pyDigit c = true) : lowerChar c = c := by
  have hp := of_decide_eq_true h
  rw [lowerChar, if_neg]
  rintro ⟨h1, _⟩
  exact absurd (Char.le_trans h1 hp.2) (by decide)

theorem digit_ne_low (c : Char) (h : pyDigit c = true) (x : Char)
    (hx : decide ('0' ≤ x) = false) : c ≠ x := by
  intro hc
  subst hc
  rw [decide_eq_false_iff_not] at hx
  exact hx (of_decide_eq_true h).1

theorem digit_ne_high (c : Char) (h : pyDigit c = true) (x : Char)
    (hx : decide (x ≤ '9') = false) : c ≠ x := by
  intro hc
  subst hc
  rw [decide_eq_false_iff_not] at hx
  exact hx (of_decide_eq_true h).2

theorem stripCI_eq_some_iff (pat : List Char) : ∀ (s r : List Char),
    stripCI pat s = some r ↔ ∃ pre, s = pre ++ r ∧ pre.map lowerChar = pat := by
  induction pat with
  | nil =>
      intro s r
      simp only [stripCI, Option.some.injEq]
      constructor
      · intro h
        exact ⟨[], by rw [h, List.nil_append], rfl⟩
      · rintro ⟨pre, rfl, hmap⟩
        rw [List.map_eq_nil_iff.mp hmap, List.nil_append]
  | cons p ps ih =>
      intro s r
      cases s with
      | nil =>
          simp only [stripCI]
          constructor
          · intro h; cases h
          · rintro ⟨pre, heq, hmap⟩
            rcases List.append_eq_nil.mp heq.symm with ⟨rfl, -⟩
            cases hmap
      | cons c cs =>
          simp only [stripCI]
          by_cases hc : lowerChar c = p
          · rw [if_pos hc, ih cs r]
            constructor
            · rintro ⟨pre, rfl, hmap⟩
              exact ⟨c :: pre, rfl, by simp [hmap, hc]⟩
            · rintro ⟨pre, heq, hmap⟩
              cases pre with
              | nil => cases hmap
              | cons a pre2 =>
                  rw [List.map_cons] at hmap
                  injection hmap with m1 m2
                  rw [List.cons_append] at heq
                  injection heq with e1 e2
                  exact ⟨pre2, e2, m2⟩
          · rw [if_neg hc]
            constructor
            · intro h; cases h
            · rintro ⟨pre, heq, hmap⟩
              cases pre with
              | nil => cases hmap
              | cons a pre2 =>
                  rw [List.map_cons] at hmap
                  injection hmap with m1 m2
                  rw [List.cons_append] at heq
                  injection heq with e1 e2
                  exact absurd (e1 ▸ m1) hc

theorem startsWithCI_iff (pat : List Char) : ∀ s : List Char,
    startsWithCI pat s = true ↔ ∃ s1 s2, s = s1 ++ s2 ∧ s1.map lowerChar = pat := by
  induction pat with
  | nil =>
      intro s
      exact iff_of_true rfl ⟨[], s, rfl, rfl⟩
  | cons p ps ih =>
      intro s
      cases s with
      | nil =>
          constructor
          · intro h; cases h
          · rintro ⟨s1, s2, heq, hmap⟩
            rcases List.append_eq_nil.mp heq.symm with ⟨rfl, -⟩
            cases hmap
      | cons c cs =>
          rw [show startsWithCI (p :: ps) (c :: cs)
              = (lowerChar c == p && startsWithCI ps cs) from rfl]
          rw [Bool.and_eq_true, beq_iff_eq, ih cs]
          constructor
          · rintro ⟨hc, s1, s2, rfl, hmap⟩
            exact ⟨c :: s1, s2, rfl, by simp [hmap, hc]⟩
          · rintro ⟨s1, s2, heq, hmap⟩
            cases s1 with
            | nil => cases hmap
            | cons a s12 =>
                rw [List.map_cons] at hmap
                injection hmap with m1 m2
                rw [List.cons_append] at heq
                injection heq with e1 e2
                exact ⟨e1 ▸ m1, s12, s2, e2, m2⟩

theorem containsCI_false_starts (pat l : List Char) (h : containsCI pat l = false) :
    startsWithCI pat l = false := by
  cases l with
  | nil => exact h
  | cons c cs =>
      rw [show containsCI pat (c :: cs)
          = (startsWithCI pat (c :: cs) || containsCI pat cs) from rfl] at h
      exact (Bool.or_eq_false_iff.mp h).1

theorem containsCI_false_tail (pat : List Char) (c : Char) (cs : List Char)
    (h : containsCI pat (c :: cs) = false) : containsCI pat cs = false := by
  rw [show containsCI pat (c :: cs)
      = (startsWithCI pat (c :: cs) || containsCI pat cs) from rfl] at h
  exact (Bool.or_eq_false_iff.mp h).2

theorem takeDigits_all (l : List Char) (h : l.all pyDigit = true) :
    takeDigits l = (l, []) := by
  induction l with
  | nil => rfl
  | cons c cs ih =>
      rw [List.all_cons, Bool.and_eq_true] at h
      rw [takeDigits, if_pos h.1, ih h.2]

theorem relPosR (l1 l2 : List Char) (h : l1 ++ 'r' :: l2 = relPat) : l1 = [] := by
  cases l1 with
  | nil => rfl
  | cons c cs =>
      exfalso
      simp only [relPat, List.cons_append] at h
      injection h with h1 h2
      have hmem : 'r' ∈ cs ++ 'r' :: l2 := by simp
      rw [h2] at hmem
      exact absurd hmem (by decide)

theorem relTail_step (s r : List Char) (h : stripCI relPat s = some r) :
    relTail s
      = match takeDigits r with
        | ([], _) => none
        | (d :: ds, _) => some (d :: ds) := by
  rw [relTail, h]

theorem relTail_full (rel ds : List Char) (hrel : rel.map lowerChar = relPat)
    (hne : ds ≠ []) (hdig : ds.all pyDigit = true) :
    relTail (rel ++ ds) = some ds := by
  have h1 : stripCI relPat (rel ++ ds) = some ds :=
    (stripCI_eq_some_iff relPat (rel ++ ds) ds).mpr ⟨rel, rfl, hrel⟩
  cases ds with
  | nil => exact absurd rfl hne
  | cons d ds2 =>
      rw [relTail_step _ _ h1, takeDigits_all (d :: ds2) hdig]

theorem relTail_digits (ds : List Char) (hdig : ds.all pyDigit = true) :
    relTail ds = none := by
  cases ds with
  | nil => rfl
  | cons d ds2 =>
      rw [List.all_cons, Bool.and_eq_true] at hdig
      have hne : lowerChar d ≠ 'r' := by
        rw [lowerChar_digit d hdig.1]
        exact digit_ne_high d hdig.1 'r' (by decide)
      have h1 : stripCI relPat (d :: ds2) = none := by
        rw [show relPat = 'r' :: ['e', 'l', 'e', 'a', 's', 'e', '/'] from rfl]
        rw [stripCI, if_neg hne]
      rw [relTail, h1]

theorem relTail_straddle (rel ds b : List Char) (hrel : rel.map lowerChar = relPat)
    (hb : b ≠ []) (hsw : startsWithCI relWord b = false) :
    relTail (b ++ (rel ++ ds)) = none := by
  cases hst : stripCI relPat (b ++ (rel ++ ds)) with
  | none => rw [relTail, hst]
  | some r =>
      exfalso
      obtain ⟨pre, heq, hmap⟩ := (stripCI_eq_some_iff relPat _ r).mp hst
      rcases List.append_eq_append_iff.mp heq with ⟨a2, hpre, hrest⟩ | ⟨c2, hb2, hr2⟩
      · -- pre = b ++ a2 and rel ++ ds = a2 ++ r
        subst hpre
        rw [List.map_append] at hmap
        cases a2 with
        | nil =>
            -- pre = b, so b itself case-insensitively spells "release/"
            rw [List.map_nil, List.append_nil] at hmap
            rw [show relPat = relWord ++ ['/'] from rfl] at hmap
            obtain ⟨b1, b2, rfl, hm1, -⟩ := List.map_eq_append_iff.mp hmap
            have : startsWithCI relWord (b1 ++ b2) = true :=
              (startsWithCI_iff relWord _).mpr ⟨b1, b2, rfl, hm1⟩
            rw [this] at hsw
            cases hsw
        | cons a a3 =>
            -- the straddle: b's image is a proper nonempty prefix of "release/",
            -- continued by rel's first character, which lowercases to 'r'
            obtain ⟨r0, rtl, hrelhd, hr0, -⟩ := List.map_eq_cons_iff.mp hrel
            have hhead : a = r0 := by
              rw [hrelhd] at hrest
              rw [List.cons_append] at hrest
              injection hrest with hh ht
              exact hh.symm
            rw [List.map_cons, hhead, hr0] at hmap
            have hbnil : b.map lowerChar = [] := relPosR _ _ hmap
            exact hb (List.map_eq_nil_iff.mp hbnil)
      · -- b = pre ++ c2: "release/" occurs case-insensitively inside b
        subst hb2
        rw [show relPat = relWord ++ ['/'] from rfl] at hmap
        obtain ⟨p1, p2, rfl, hm1, -⟩ := List.map_eq_append_iff.mp hmap
        have : startsWithCI relWord ((p1 ++ p2) ++ c2) = true :=
          (startsWithCI_iff relWord _).mpr ⟨p1, p2 ++ c2, by rw [List.append_assoc], hm1⟩
        rw [this] at hsw
        cases hsw

theorem scanGroup_step (tail : List Char → Option (List Char)) (c : Char) (cs : List Char)
    (h1 : c ≠ '\n') (h2 : c = '/' → tail cs = none) :
    scanGroup tail (c :: cs) = scanGroup tail cs := by
  rw [scanGroup, if_neg h1]
  by_cases hs : c = '/'
  · rw [if_pos hs, h2 hs]
  · rw [if_neg hs]

theorem scanGroup_hit (tail : List Char → Option (List Char)) (c : Char) (cs r : List Char)
    (h1 : c ≠ '\n') (hs : c = '/') (h : tail cs = some r) :
    scanGroup tail (c :: cs) = some r := by
  rw [scanGroup, if_neg h1, if_pos hs, h]

theorem scanGroup_digits (ds : List Char) (h : ds.all pyDigit = true) :
    scanGroup relTail ds = none := by
  induction ds with
  | nil => rfl
  | cons c cs ih =>
      rw [List.all_cons, Bool.and_eq_true] at h
      rw [scanGroup_step relTail c cs
        (digit_ne_low c h.1 '\n' (by decide))
        (fun hc => absurd hc (digit_ne_low c h.1 '/' (by decide)))]
      exact ih h.2

theorem scanGroup_rel_ds (rel ds : List Char) (hrel : rel.map lowerChar = relPat)
    (hdig : ds.all pyDigit = true) :
    scanGroup relTail (rel ++ ds) = none := by
  simp only [relPat] at hrel
  obtain ⟨c0, t0, rfl, h0, hrel⟩ := List.map_eq_cons_iff.mp hrel
  obtain ⟨c1, t1, rfl, h1, hrel⟩ := List.map_eq_cons_iff.mp hrel
  obtain ⟨c2, t2, rfl, h2, hrel⟩ := List.map_eq_cons_iff.mp hrel
  obtain ⟨c3, t3, rfl, h3, hrel⟩ := List.map_eq_cons_iff.mp hrel
  obtain ⟨c4, t4, rfl, h4, hrel⟩ := List.map_eq_cons_iff.mp hrel
  obtain ⟨c5, t5, rfl, h5, hrel⟩ := List.map_eq_cons_iff.mp hrel
  obtain ⟨c6, t6, rfl, h6, hrel⟩ := List.map_eq_cons_iff.mp hrel
  obtain ⟨c7, t7, rfl, h7, hrel⟩ := List.map_eq_cons_iff.mp hrel
  have ht7 : t7 = [] := List.map_eq_nil_iff.mp hrel
  subst ht7
  simp only [List.cons_append, List.nil_append]
  rw [scanGroup_step relTail c0 _ (ne_of_lower c0 'r' '\n' h0 (by decide) (by decide))
      (fun hc => absurd hc (ne_of_lower c0 'r' '/' h0 (by decide) (by decide)))]
  rw [scanGroup_step relTail c1 _ (ne_of_lower c1 'e' '\n' h1 (by decide) (by decide))
      (fun hc => absurd hc (ne_of_lower c1 'e' '/' h1 (by decide) (by decide)))]
  rw [scanGroup_step relTail c2 _ (ne_of_lower c2 'l' '\n' h2 (by decide) (by decide))
      (fun hc => absurd hc (ne_of_lower c2 'l' '/' h2 (by decide) (by decide)))]
  rw [scanGroup_step relTail c3 _ (ne_of_lower c3 'e' '\n' h3 (by decide) (by decide))
      (fun hc => absurd hc (ne_of_lower c3 'e' '/' h3 (by decide) (by decide)))]
  rw [scanGroup_step relTail c4 _ (ne_of_lower c4 'a' '\n' h4 (by decide) (by decide))
      (fun hc => absurd hc (ne_of_lower c4 'a' '/' h4 (by decide) (by decide)))]
  rw [scanGroup_step relTail c5 _ (ne_of_lower c5 's' '\n' h5 (by decide) (by decide))
      (fun hc => absurd hc (ne_of_lower c5 's' '/' h5 (by decide) (by decide)))]
  rw [scanGroup_step relTail c6 _ (ne_of_lower c6 'e' '\n' h6 (by decide) (by decide))
      (fun hc => absurd hc (ne_of_lower c6 'e' '/' h6 (by decide) (by decide)))]
  rw [scanGroup_step relTail c7 ds (ne_of_lower c7 '/' '\n' h7 (by decide) (by decide))
      (fun _ => relTail_digits ds hdig)]
  exact scanGroup_digits ds hdig

theorem scanGroup_mid (rel ds : List Char) (hrel : rel.map lowerChar = relPat)
    (hne : ds ≠ []) (hdig : ds.all pyDigit = true) :
    ∀ m : List Char, '\n' ∉ m → containsCI relWord (m ++ ['/']) = false →
      scanGroup relTail ((m ++ ['/']) ++ (rel ++ ds)) = some ds := by
  intro m
  induction m with
  | nil =>
      intro _ _
      simp only [List.nil_append, List.cons_append]
      exact scanGroup_hit relTail '/' _ ds (by decide) rfl (relTail_full rel ds hrel hne hdig)
  | cons c m ih =>
      intro hnl hcon
      have hcm : '\n' ∉ m := fun h => hnl (List.mem_cons_of_mem c h)
      have hcnl : c ≠ '\n' := fun h => hnl (h ▸ List.mem_cons_self c m)
      rw [List.cons_append] at hcon
      have hcon2 : containsCI relWord (m ++ ['/']) = false :=
        containsCI_false_tail relWord c (m ++ ['/']) hcon
      have hstep : c = '/' → relTail ((m ++ ['/']) ++ (rel ++ ds)) = none := by
        intro _
        exact relTail_straddle rel ds (m ++ ['/']) hrel (by simp)
          (containsCI_false_starts relWord (m ++ ['/']) hcon2)
      rw [show ((c :: m) ++ ['/']) ++ (rel ++ ds) = c :: ((m ++ ['/']) ++ (rel ++ ds)) by simp]
      rw [scanGroup_step relTail c _ hcnl hstep]
      exact ih hcm hcon2

theorem stripCI_head_ne (p : Char) (ps : List Char) (c : Char) (cs : List Char)
    (h : lowerChar c ≠ p) : stripCI (p :: ps) (c :: cs) = none := by
  rw [stripCI, if_neg h]

theorem searchFrom_skip (tail : List Char → Option (List Char)) (c : Char) (cs : List Char)
    (h : lowerChar c ≠ 'd') : searchFrom tail (c :: cs) = searchFrom tail cs := by
  have h0 : stripCI domPat (c :: cs) = none :=
    stripCI_head_ne 'd' ['i', 's', 'c', 'o', 'g', 's', '.', 'c', 'o', 'm', '/'] c cs h
  rw [searchFrom, h0]

theorem searchFrom_step_some (tail : List Char → Option (List Char)) (c : Char)
    (cs r : List Char) (h1 : stripCI domPat (c :: cs) = some r) :
    searchFrom tail (c :: cs)
      = match afterDomain tail r with
        | some ds => some ds
        | none => searchFrom tail cs := by
  rw [searchFrom, h1]

theorem searchFrom_hit (tail : List Char → Option (List Char)) (c : Char)
    (cs r v : List Char) (h1 : stripCI domPat (c :: cs) = some r)
    (h2 : afterDomain tail r = some v) :
    searchFrom tail (c :: cs) = some v := by
  rw [searchFrom_step_some tail c cs r h1, h2]

/-- C4: the URL identifier checks the release pattern first and returns
("release", id) when it matches, else ("master", id) when the master pattern
matches, else (absent, absent); and for every well-formed release URL — any
newline-free path prefix made of `/`-terminated segments not containing the
word "release" (case-insensitively), any casing of the word "release", and a
non-empty numeric id — it yields ("release", id). -/
theorem c4_extract_id_release :
    (∀ (t : String) (i : String), searchRelease t = some i →
        extract_id t = (some "release", some i))
    ∧ (∀ (t : String) (i : String), searchRelease t = none → searchMaster t = some i →
        extract_id t = (some "master", some i))
    ∧ (∀ t : String, searchRelease t = none → searchMaster t = none →
        extract_id t = (none, none))
    ∧ (∀ mid rel ds : String,
        '\n' ∉ mid.data →
        containsCI relWord mid.data = false →
        (mid.data = [] ∨ ∃ m, mid.data = m ++ ['/']) →
        rel.data.map lowerChar = relPat →
        ds.data ≠ [] →
        ds.data.all pyDigit = true →
        extract_id ("https://www.discogs.com/" ++ mid ++ rel ++ ds)
          = (some "release", some ds)) := by
  refine ⟨?_, ?_, ?_, ?_⟩
  · intro t i h
    rw [extract_id, h]
  · intro t i h1 h2
    rw [extract_id, h1, h2]
  · intro t h1 h2
    rw [extract_id, h1, h2]
  · intro mid rel ds hnl hcon hsh hrel hne hdig
    have hlit : "https://www.discogs.com/".data
        = 'h' :: 't' :: 't' :: 'p' :: 's' :: ':' :: '/' :: '/' :: 'w' :: 'w' :: 'w' :: '.'
          :: domPat := by decide
    have hdata : ("https://www.discogs.com/" ++ mid ++ rel ++ ds).data
        = 'h' :: 't' :: 't' :: 'p' :: 's' :: ':' :: '/' :: '/' :: 'w' :: 'w' :: 'w' :: '.'
          :: (domPat ++ (mid.data ++ (rel.data ++ ds.data))) := by
      simp only [String.data_append, List.append_assoc, hlit, List.cons_append]
      rfl
    have hafter : afterDomain relTail (mid.data ++ (rel.data ++ ds.data)) = some ds.data := by
      rcases hsh with h0 | ⟨m, hm⟩
      · rw [h0, List.nil_append]
        have g1 : scanGroup relTail (rel.data ++ ds.data) = none :=
          scanGroup_rel_ds _ _ hrel hdig
        have g2 : relTail (rel.data ++ ds.data) = some ds.data :=
          relTail_full _ _ hrel hne hdig
        rw [afterDomain, g1, g2]
      · rw [hm] at hnl hcon ⊢
        have hm_nl : '\n' ∉ m := fun h => hnl (List.mem_append_left _ h)
        have g1 : scanGroup relTail ((m ++ ['/']) ++ (rel.data ++ ds.data)) = some ds.data :=
          scanGroup_mid _ _ hrel hne hdig m hm_nl hcon
        rw [afterDomain, g1]
    have hd0 : stripCI domPat (domPat ++ (mid.data ++ (rel.data ++ ds.data)))
        = some (mid.data ++ (rel.data ++ ds.data)) :=
      (stripCI_eq_some_iff domPat _ _).mpr ⟨domPat, rfl, by decide⟩
    have hs : searchFrom relTail (("https://www.discogs.com/" ++ mid ++ rel ++ ds).data)
        = some ds.data := by
      rw [hdata]
      rw [searchFrom_skip relTail 'h' _ (by decide)]
      rw [searchFrom_skip relTail 't' _ (by decide)]
      rw [searchFrom_skip relTail 't' _ (by decide)]
      rw [searchFrom_skip relTail 'p' _ (by decide)]
      rw [searchFrom_skip relTail 's' _ (by decide)]
      rw [searchFrom_skip relTail ':' _ (by decide)]
      rw [searchFrom_skip relTail '/' _ (by decide)]
      rw [searchFrom_skip relTail '/' _ (by decide)]
      rw [searchFrom_skip relTail 'w' _ (by decide)]
      rw [searchFrom_skip relTail 'w' _ (by decide)]
      rw [searchFrom_skip relTail 'w' _ (by decide)]
      rw [searchFrom_skip relTail '.' _ (by decide)]
      exact searchFrom_hit relTail 'd'
        (['i', 's', 'c', 'o', 'g', 's', '.', 'c', 'o', 'm', '/']
          ++ (mid.data ++ (rel.data ++ ds.data)))
        (mid.data ++ (rel.data ++ ds.data)) ds.data hd0 hafter
    have hmk : String.mk ds.data = ds := by
      cases ds
      rfl
    have hsr : searchRelease ("https://www.discogs.com/" ++ mid ++ rel ++ ds) = some ds := by
      rw [searchRelease, hs]
      exact congrArg some hmk
    rw [extract_id, hsr]

/-- Witness for C4: a release URL with extra path segments and mixed casing,
plus the master and no-match branches at concrete inputs. -/
theorem c4_extract_id_release_witness :
    extract_id "https://www.discogs.com/ja/The-Artist/ReLeAsE/4791"
        = (some "release", some "4791")
      ∧ extract_id "see discogs.com/master/99 now" = (some "master", some "99")
      ∧ extract_id "hello" = (none, none) := by
  refine ⟨?_, ?_, ?_⟩
  · have h := c4_extract_id_release.2.2.2 "ja/The-Artist/" "ReLeAsE/" "4791"
      (by decide) (by decide) (Or.inr ⟨"ja/The-Artist".data, by decide⟩)
      (by decide) (by decide) (by decide)
    exact h
  · exact c4_extract_id_release.2.1 "see discogs.com/master/99 now" "99" (by decide) (by decide)
  · exact c4_extract_id_release.2.2.1 "hello" (by decide) (by decide)
